import Mathlib

/-!
Verification development for the `HomeLoan` amortization engine
(`src/home_loan.py`).  The Python code is shallowly embedded over `ℚ`
(exact rational arithmetic in place of floats); a Python
`ZeroDivisionError` is modelled as `Except.error ()`, and the nullable
payment (`None`) as `Option ℚ`.
-/

namespace HomeLoanModel

/-- One row of the simulation `plan` (the tuple appended in
`HomeLoan.simulate`, with the column names used by the DataFrame). -/
structure Record where
  i : ℕ
  month : ℚ
  year : ℚ
  rate : ℚ
  offset_pay : ℚ
  interest_pay : ℚ
  principal_pay : ℚ
  extra_pay : ℚ
  total_pay : ℚ
  principal : ℚ
  offset : ℚ
  extra : ℚ
  remaining : ℚ
  deriving Repr, DecidableEq, Inhabited

/-- Embedding of `HomeLoan.get_recurring_payment_c`.  Python returns
`None` when `p <= 0 or n == 0` (modelled as `Except.ok none`), raises
`ZeroDivisionError` when `(1+r)**n` is evaluated with base `0` and a
negative exponent or when the denominator `(1+r)**n - 1` is `0`
(modelled as `Except.error ()`), and otherwise returns the annuity
payment `p * (r * (1+r)^n) / ((1+r)^n - 1)`. -/
def get_recurring_payment_c (n : ℤ) (p r : ℚ) : Except Unit (Option ℚ) :=
  if p ≤ 0 ∨ n = 0 then .ok none
  else if 1 + r = 0 ∧ n < 0 then .error ()
  else if (1 + r) ^ n - 1 = 0 then .error ()
  else .ok (some (p * (r * (1 + r) ^ n) / ((1 + r) ^ n - 1)))

/-- Embedding of `HomeLoan.get_current_rate_r`.  The schedule `Rs` is the
DataFrame's list of `(month, rate)` rows in stored (insertion) order;
`Rs[month >= Rs month-column]` keeps rows with row-month `<= month` in
stored order, and `.iloc[-1]` takes the LAST such row.  If a row is
found its annual rate is divided by `k`, otherwise the carried-in
default `r` is returned. -/
def get_current_rate_r (k : ℕ) (r : ℚ) (Rs : Option (List (ℚ × ℚ)))
    (month : ℚ) : ℚ :=
  match Rs with
  | none => r
  | some l =>
    match (l.filter (fun x => decide (x.1 ≤ month))).getLast? with
    | none => r
    | some x => x.2 / (k : ℚ)

/-- Embedding of `HomeLoan.get_accumulated_offset_o`: the sum of the
`amount` column over rows with row-month `<= month` (`0` when the
schedule is absent or nothing qualifies, since an empty sum is `0`). -/
def get_accumulated_offset_o (Os : Option (List (ℚ × ℚ))) (month : ℚ) : ℚ :=
  match Os with
  | none => 0
  | some l => ((l.filter (fun x => decide (x.1 ≤ month))).map Prod.snd).sum

/-- The static loan parameters (`HomeLoan.__init__`).  The term `N` is
kept integral (the engine's derived `n = N * k` is used as an integral
period count throughout the simulation). -/
structure HomeLoan where
  N : ℕ
  k : ℕ
  P : ℚ
  R0 : ℚ
  deriving Repr, DecidableEq

/-- Derived total period count `self.n = self.N * self.k`. -/
def HomeLoan.n (L : HomeLoan) : ℕ := L.N * L.k

/-- Derived initial periodic rate `self.r0 = self.R0 / self.k`. -/
def HomeLoan.r0 (L : HomeLoan) : ℚ := L.R0 / (L.k : ℚ)

/-- The mutable state of the `while` loop in `HomeLoan.simulate`:
outstanding principal `p`, carried periodic rate `r`, accumulated
offset `o`, accumulated extra `e`, period index `i`, last computed
payment `c` (`none` models Python's `None`), and the emitted rows. -/
structure SimState where
  p : ℚ
  r : ℚ
  o : ℚ
  e : ℚ
  i : ℕ
  c : Option ℚ
  plan : List Record
  deriving Repr, DecidableEq

/-- The loop guard `p > e and c is not None`. -/
def simCond (st : SimState) : Bool :=
  decide (st.e < st.p) && st.c.isSome

/-- One iteration of the `while` body of `HomeLoan.simulate`, faithful
to the source line by line; a `ZeroDivisionError` escaping from the
payment formula aborts the whole simulation (`Except.error`). -/
def simBody (L : HomeLoan) (Rs Os : Option (List (ℚ × ℚ))) (st : SimState) :
    Except Unit SimState :=
  let prev_month : ℚ := ((st.i : ℚ) - 1) * 12 / (L.k : ℚ)
  let curr_month : ℚ := (st.i : ℚ) * 12 / (L.k : ℚ)
  let curr_year : ℚ := (st.i : ℚ) / (L.k : ℚ)
  let r := get_current_rate_r L.k st.r Rs curr_month
  let cres : Except Unit (Option ℚ) :=
    if 0 < st.i then get_recurring_payment_c ((L.n : ℤ) + 1 - (st.i : ℤ)) st.p r
    else .ok (some 0)
  match cres with
  | .error u => .error u
  | .ok c =>
    let prev_o := get_accumulated_offset_o Os prev_month
    let o := get_accumulated_offset_o Os curr_month
    let o_pay := o - prev_o
    let total_pay := c.getD 0
    let interest_pay_planned := if 0 < st.i then st.p * r else 0
    let interest_pay_actual :=
      if 0 < st.i then max 0 (st.p - (prev_o + st.e)) * r else 0
    let principal_pay := total_pay - interest_pay_planned
    let extra_pay := interest_pay_planned - interest_pay_actual
    let p1 := st.p - principal_pay
    let e1 := st.e + extra_pay
    let row : Record :=
      { i := st.i, month := curr_month, year := curr_year,
        rate := r * (L.k : ℚ), offset_pay := o_pay,
        interest_pay := interest_pay_actual, principal_pay := principal_pay,
        extra_pay := extra_pay, total_pay := total_pay, principal := p1,
        offset := o, extra := e1, remaining := p1 - e1 }
    .ok { p := p1, r := r, o := o, e := e1, i := st.i + 1, c := c,
          plan := st.plan ++ [row] }

/-- Fuel-indexed unfolding of the `while` loop: perform up to `fuel`
iterations, stopping as soon as the guard fails. -/
def simRun (L : HomeLoan) (Rs Os : Option (List (ℚ × ℚ))) :
    ℕ → SimState → Except Unit SimState
  | 0, st => .ok st
  | fuel + 1, st =>
    if simCond st then
      match simBody L Rs Os st with
      | .error u => .error u
      | .ok st1 => simRun L Rs Os fuel st1
    else .ok st

/-- The loop-entry state of `HomeLoan.simulate`:
`p = P, r = r0, o = 0, e = 0, i = 0, c = 0` and an empty plan. -/
def HomeLoan.initState (L : HomeLoan) : SimState :=
  { p := L.P, r := L.r0, o := 0, e := 0, i := 0, c := some 0, plan := [] }

/-- Embedding of `HomeLoan.simulate`: run the loop to completion and
return the emitted plan.  `L.n + 2` iterations always suffice: theorems
`simRun_terminal_aux` and `simRun_stable` below show the loop can take
no further step by then (the period index grows by one per iteration
and a `None` payment is forced at index `L.n + 1`), so the fuel-indexed
runner computes the exact `while` loop on every input. -/
def HomeLoan.simulate (L : HomeLoan) (Rs Os : Option (List (ℚ × ℚ))) :
    Except Unit (List Record) :=
  (simRun L Rs Os (L.n + 2) L.initState).map SimState.plan

/-- A schedule whose second components (annual rates, or offset
amounts) are all non-negative. -/
def schedNonneg : Option (List (ℚ × ℚ)) → Prop
  | none => True
  | some l => ∀ x ∈ l, 0 ≤ x.2

/-- A run result that can take no further loop iteration: either the
simulation aborted with an exception, or the loop guard is false. -/
def terminalized : Except Unit SimState → Prop
  | .error _ => True
  | .ok st => simCond st = false

/-- When the loop guard fails, running any amount of fuel is a no-op. -/
theorem simRun_guard_false (L : HomeLoan) (Rs Os : Option (List (ℚ × ℚ)))
    (fuel : ℕ) (st : SimState) (h : simCond st = false) :
    simRun L Rs Os fuel st = .ok st := by
  cases fuel with
  | zero => rfl
  | succ f => simp [simRun, h]

/-- Invariant preservation along a successful run: any predicate
preserved by one successful loop iteration holds at the final state. -/
theorem simRun_inv (L : HomeLoan) (Rs Os : Option (List (ℚ × ℚ)))
    (Inv : SimState → Prop)
    (hstep : ∀ st st', simCond st = true → simBody L Rs Os st = .ok st' →
      Inv st → Inv st') :
    ∀ (fuel : ℕ) (st st' : SimState), Inv st →
      simRun L Rs Os fuel st = .ok st' → Inv st' := by
  intro fuel
  induction fuel with
  | zero =>
    intro st st' h hrun
    simp only [simRun] at hrun
    cases hrun
    exact h
  | succ f ih =>
    intro st st' h hrun
    by_cases hc : simCond st = true
    · rw [simRun, if_pos hc] at hrun
      cases hb : simBody L Rs Os st with
      | error u => rw [hb] at hrun; cases hrun
      | ok st1 => rw [hb] at hrun; exact ih st1 st' (hstep st st1 hc hb h) hrun
    · rw [simRun_guard_false L Rs Os (f + 1) st (by simpa using hc)] at hrun
      cases hrun
      exact h

/-- Splitting a run: running `f + g` steps is running `f` steps and
then `g` steps. -/
theorem simRun_add (L : HomeLoan) (Rs Os : Option (List (ℚ × ℚ))) :
    ∀ (f g : ℕ) (st : SimState),
      simRun L Rs Os (f + g) st =
        match simRun L Rs Os f st with
        | .error u => .error u
        | .ok st1 => simRun L Rs Os g st1 := by
  intro f
  induction f with
  | zero =>
    intro g st
    simp [simRun, Nat.zero_add]
  | succ f ih =>
    intro g st
    have harr : f + 1 + g = (f + g) + 1 := by omega
    rw [harr]
    by_cases hc : simCond st = true
    · rw [simRun, if_pos hc, simRun, if_pos hc]
      cases hb : simBody L Rs Os st with
      | error u => simp
      | ok st1 => simpa using ih g st1
    · rw [simRun_guard_false L Rs Os ((f + g) + 1) st (by simpa using hc),
        simRun_guard_false L Rs Os (f + 1) st (by simpa using hc)]
      simp [simRun_guard_false L Rs Os g st (by simpa using hc)]

/-- A terminalized run result absorbs any extra fuel. -/
theorem simRun_stable (L : HomeLoan) (Rs Os : Option (List (ℚ × ℚ)))
    (f g : ℕ) (st : SimState) (h : terminalized (simRun L Rs Os f st)) :
    simRun L Rs Os (f + g) st = simRun L Rs Os f st := by
  rw [simRun_add]
  cases hres : simRun L Rs Os f st with
  | error u => simp
  | ok st1 =>
    rw [hres, terminalized] at h
    simp [simRun_guard_false L Rs Os g st1 h]

/-- The periodic rate resolved by one loop iteration from state `st`
(the second line of the loop body). -/
def stepR (L : HomeLoan) (Rs : Option (List (ℚ × ℚ))) (st : SimState) : ℚ :=
  get_current_rate_r L.k st.r Rs ((st.i : ℚ) * 12 / (L.k : ℚ))

/-- The offset accumulated up to the previous month boundary, as
queried by one loop iteration from state `st`. -/
def stepPrevO (L : HomeLoan) (Os : Option (List (ℚ × ℚ)))
    (st : SimState) : ℚ :=
  get_accumulated_offset_o Os (((st.i : ℚ) - 1) * 12 / (L.k : ℚ))

/-- The offset accumulated up to the current month boundary, as
queried by one loop iteration from state `st`. -/
def stepO (L : HomeLoan) (Os : Option (List (ℚ × ℚ))) (st : SimState) : ℚ :=
  get_accumulated_offset_o Os ((st.i : ℚ) * 12 / (L.k : ℚ))

/-- `interest_pay_planned` of one loop iteration from state `st`. -/
def stepPlanned (L : HomeLoan) (Rs : Option (List (ℚ × ℚ)))
    (st : SimState) : ℚ :=
  if 0 < st.i then st.p * stepR L Rs st else 0

/-- `interest_pay_actual` of one loop iteration from state `st`:
note it uses the PREVIOUS month boundary's accumulated offset. -/
def stepActual (L : HomeLoan) (Rs Os : Option (List (ℚ × ℚ)))
    (st : SimState) : ℚ :=
  if 0 < st.i then max 0 (st.p - (stepPrevO L Os st + st.e)) * stepR L Rs st
  else 0

/-- The row appended by one loop iteration from state `st` when the
payment formula produced `c`. -/
def stepRow (L : HomeLoan) (Rs Os : Option (List (ℚ × ℚ))) (st : SimState)
    (c : Option ℚ) : Record :=
  { i := st.i, month := (st.i : ℚ) * 12 / (L.k : ℚ),
    year := (st.i : ℚ) / (L.k : ℚ), rate := stepR L Rs st * (L.k : ℚ),
    offset_pay := stepO L Os st - stepPrevO L Os st,
    interest_pay := stepActual L Rs Os st,
    principal_pay := c.getD 0 - stepPlanned L Rs st,
    extra_pay := stepPlanned L Rs st - stepActual L Rs Os st,
    total_pay := c.getD 0,
    principal := st.p - (c.getD 0 - stepPlanned L Rs st),
    offset := stepO L Os st,
    extra := st.e + (stepPlanned L Rs st - stepActual L Rs Os st),
    remaining := st.p - (c.getD 0 - stepPlanned L Rs st) -
      (st.e + (stepPlanned L Rs st - stepActual L Rs Os st)) }

/-- The successor state of one loop iteration from state `st` when the
payment formula produced `c`. -/
def stepNext (L : HomeLoan) (Rs Os : Option (List (ℚ × ℚ))) (st : SimState)
    (c : Option ℚ) : SimState :=
  { p := st.p - (c.getD 0 - stepPlanned L Rs st), r := stepR L Rs st,
    o := stepO L Os st,
    e := st.e + (stepPlanned L Rs st - stepActual L Rs Os st),
    i := st.i + 1, c := c, plan := st.plan ++ [stepRow L Rs Os st c] }

/-- The nullable payment computed by one loop iteration from state
`st` (`some 0` at the inception period `i = 0`). -/
def stepC (L : HomeLoan) (Rs : Option (List (ℚ × ℚ))) (st : SimState) :
    Except Unit (Option ℚ) :=
  if 0 < st.i then
    get_recurring_payment_c ((L.n : ℤ) + 1 - (st.i : ℤ)) st.p (stepR L Rs st)
  else .ok (some 0)

/-- The loop body, rephrased through the named step components. -/
theorem simBody_eq (L : HomeLoan) (Rs Os : Option (List (ℚ × ℚ)))
    (st : SimState) :
    simBody L Rs Os st =
      match stepC L Rs st with
      | .error u => .error u
      | .ok c => .ok (stepNext L Rs Os st c) := rfl

/-- The payment formula never returns `None` when its preconditions
hold (positive outstanding principal and a nonzero period count). -/
theorem payment_not_none (n : ℤ) (p r : ℚ) (hn : n ≠ 0) (hp : 0 < p) :
    get_recurring_payment_c n p r ≠ .ok none := by
  unfold get_recurring_payment_c
  have h1 : ¬(p ≤ 0 ∨ n = 0) := by
    push_neg
    exact ⟨by linarith, hn⟩
  rw [if_neg h1]
  split_ifs <;> simp

/-- A successful payment exposes a nonzero denominator and the annuity
formula value. -/
theorem payment_ok_value (n : ℤ) (p r v : ℚ)
    (h : get_recurring_payment_c n p r = .ok (some v)) :
    (1 + r) ^ n - 1 ≠ 0 ∧ v = p * (r * (1 + r) ^ n) / ((1 + r) ^ n - 1) := by
  unfold get_recurring_payment_c at h
  split_ifs at h with h1 h2 h3
  · simp at h
  · refine ⟨h3, ?_⟩
    have := Except.ok.inj h
    exact (Option.some.inj this).symm

/-- A successful payment with a nonzero period count forces a nonzero
periodic rate (at rate `0` the denominator would have been `0`). -/
theorem payment_r_ne_zero (n : ℤ) (p r v : ℚ)
    (h : get_recurring_payment_c n p r = .ok (some v)) : r ≠ 0 := by
  intro hr0
  have hval := (payment_ok_value n p r v h).1
  rw [hr0] at hval
  simp at hval

/-- Over a positive remaining term at a non-negative rate, the annuity
payment covers at least the planned interest `p * r`. -/
theorem payment_ge_interest (n : ℤ) (p r v : ℚ) (hn : 1 ≤ n) (hp : 0 < p)
    (hr : 0 ≤ r) (h : get_recurring_payment_c n p r = .ok (some v)) :
    p * r ≤ v := by
  obtain ⟨hD, hv⟩ := payment_ok_value n p r v h
  have hrne : r ≠ 0 := payment_r_ne_zero n p r v h
  have hrpos : 0 < r := lt_of_le_of_ne hr (Ne.symm hrne)
  have hmn : ((n.toNat : ℤ)) = n := Int.toNat_of_nonneg (by omega)
  have hpow : 1 < (1 + r) ^ n := by
    rw [← hmn, zpow_natCast]
    exact one_lt_pow₀ (by linarith) (by omega)
  have hDpos : 0 < (1 + r) ^ n - 1 := by linarith
  have hsplit : v = p * r + p * r / ((1 + r) ^ n - 1) := by
    rw [hv]
    field_simp
    ring
  rw [hsplit]
  have : 0 ≤ p * r / ((1 + r) ^ n - 1) :=
    div_nonneg (by positivity) (le_of_lt hDpos)
  linarith

/-- With exactly one period remaining the annuity payment is the full
balance plus one period of interest. -/
theorem payment_one_period (p r v : ℚ)
    (h : get_recurring_payment_c 1 p r = .ok (some v)) : v = p * (1 + r) := by
  obtain ⟨hD, hv⟩ := payment_ok_value 1 p r v h
  have hrne : r ≠ 0 := payment_r_ne_zero 1 p r v h
  rw [zpow_one] at hD hv
  rw [hv]
  have hD' : 1 + r - 1 = r := by ring
  rw [hD']
  field_simp
  ring

/-- The rate lookup keeps a non-negative rate non-negative when all
scheduled annual rates are non-negative. -/
theorem get_current_rate_r_nonneg (k : ℕ) (r : ℚ)
    (Rs : Option (List (ℚ × ℚ))) (m : ℚ) (hr : 0 ≤ r)
    (hRs : schedNonneg Rs) : 0 ≤ get_current_rate_r k r Rs m := by
  cases Rs with
  | none => exact hr
  | some l =>
    simp only [get_current_rate_r]
    cases h : (l.filter (fun x => decide (x.1 ≤ m))).getLast? with
    | none => exact hr
    | some x =>
      have hx : x ∈ l :=
        List.mem_of_mem_filter (List.mem_of_mem_getLast? h)
      exact div_nonneg (hRs x hx) (Nat.cast_nonneg k)

/-- The accumulated offset is non-negative when all contribution
amounts are non-negative. -/
theorem get_accumulated_offset_o_nonneg (Os : Option (List (ℚ × ℚ)))
    (m : ℚ) (hOs : schedNonneg Os) : 0 ≤ get_accumulated_offset_o Os m := by
  cases Os with
  | none => exact le_refl 0
  | some l =>
    simp only [get_accumulated_offset_o]
    refine List.sum_nonneg ?_
    intro x hx
    obtain ⟨y, hy, rfl⟩ := List.mem_map.mp hx
    exact hOs y (List.mem_of_mem_filter hy)

/-- In a list sorted (non-strictly) by first component, `getLast?`
returns an entry whose first component dominates every member's. -/
theorem pairwise_le_getLast? :
    ∀ (l : List (ℚ × ℚ)), l.Pairwise (fun a b => a.1 ≤ b.1) →
      ∀ x, l.getLast? = some x → ∀ y ∈ l, y.1 ≤ x.1 := by
  intro l
  induction l with
  | nil => intro _ x hx; simp at hx
  | cons a t ih =>
    intro hp x hx y hy
    cases t with
    | nil =>
      simp at hx hy
      rw [hy, hx]
    | cons b t' =>
      rw [List.getLast?_cons_cons] at hx
      rw [List.pairwise_cons] at hp
      rcases List.mem_cons.mp hy with hya | hyt
      · have hxmem : x ∈ b :: t' := List.mem_of_mem_getLast? hx
        rw [hya]
        exact hp.1 x hxmem
      · exact ih hp.2 x hx y hyt

/-- The emitted plan only grows along a run. -/
theorem simRun_plan_grows (L : HomeLoan) (Rs Os : Option (List (ℚ × ℚ)))
    (fuel : ℕ) (st st' : SimState)
    (hrun : simRun L Rs Os fuel st = .ok st') :
    ∃ tail, st'.plan = st.plan ++ tail := by
  refine simRun_inv L Rs Os (fun s => ∃ tail, s.plan = st.plan ++ tail)
    ?_ fuel st st' ⟨[], by simp⟩ hrun
  intro s s' _ hb ⟨tail, htail⟩
  simp only [simBody] at hb
  split at hb
  · cases hb
  · cases hb
    exact ⟨_, by rw [htail, List.append_assoc]⟩

/-- C1: at a zero periodic rate the payment formula does NOT return
`p / n`: the code evaluates the annuity formula whose denominator
`(1+r)^n - 1` is `0`, raising `ZeroDivisionError` (modelled as
`Except.error ()`), for every positive period count `n` and positive
principal `p`.  The spec's required `r == 0` special case is absent
from the code. -/
theorem zero_rate_payment_raises (n : ℤ) (p : ℚ) (hn : 0 < n)
    (hp : 0 < p) : get_recurring_payment_c n p 0 = .error () := by
  unfold get_recurring_payment_c
  have h1 : ¬(p ≤ 0 ∨ n = 0) := by
    push_neg
    exact ⟨by linarith, by omega⟩
  have h2 : ¬((1 : ℚ) + 0 = 0 ∧ n < 0) := by
    push_neg
    intro h
    exfalso
    exact one_ne_zero (by linarith : (1 : ℚ) = 0)
  have h3 : ((1 : ℚ) + 0) ^ n - 1 = 0 := by
    rw [add_zero, one_zpow]
    ring
  rw [if_neg h1, if_neg h2, if_pos h3]

/-- C1 witness: the zero-rate failure at the concrete input
`n = 300, p = 1000000`. -/
theorem zero_rate_payment_raises_witness :
    (0 : ℤ) < 300 ∧ (0 : ℚ) < 1000000 ∧
      get_recurring_payment_c 300 1000000 0 = .error () :=
  ⟨by norm_num, by norm_num,
    zero_rate_payment_raises 300 1000000 (by norm_num) (by norm_num)⟩

/-- C2 counterexample: with the unsorted schedule
`[(10, 4), (5, 6)]` and month cursor `12`, both entries qualify
(months `10` and `5` are `≤ 12`), the greatest qualifying month offset
is `10` (since `5 ≤ 10`), so the claim demands rate `4 / 2`; but the
code returns `6 / 2` — the LAST STORED qualifying entry `(5, 6)` — so
the result does depend on insertion order. -/
theorem current_rate_insertion_order_cex :
    get_current_rate_r 2 0 (some [(10, 4), (5, 6)]) 12 = 6 / 2 ∧
      (6 / 2 : ℚ) ≠ 4 / 2 ∧ (5 : ℚ) ≤ 10 ∧ (10 : ℚ) ≤ 12 ∧
      (5 : ℚ) ≤ 12 := by
  refine ⟨?_, by norm_num, by norm_num, by norm_num, by norm_num⟩
  norm_num [get_current_rate_r, List.filter]

/-- C2 amended: `currentRate` returns the annual rate, divided by `k`,
of the LAST STORED qualifying entry; when the schedule is sorted
ascending by month offset this is a qualifying entry with the greatest
month offset, and the default `r` is returned unchanged when no entry
qualifies (or the schedule is absent). -/
theorem current_rate_sorted_max (k : ℕ) (r m : ℚ) (l : List (ℚ × ℚ))
    (hs : l.Pairwise (fun a b => a.1 ≤ b.1)) :
    get_current_rate_r k r none m = r ∧
    ((∀ y ∈ l, ¬y.1 ≤ m) → get_current_rate_r k r (some l) m = r) ∧
    ((∃ y ∈ l, y.1 ≤ m) → ∃ x ∈ l, x.1 ≤ m ∧
      (∀ y ∈ l, y.1 ≤ m → y.1 ≤ x.1) ∧
      get_current_rate_r k r (some l) m = x.2 / (k : ℚ)) := by
  refine ⟨rfl, ?_, ?_⟩
  · intro hnone
    have hfil : l.filter (fun x => decide (x.1 ≤ m)) = [] := by
      rw [List.filter_eq_nil]
      intro a ha
      simpa using hnone a ha
    simp [get_current_rate_r, hfil]
  · intro ⟨y, hy, hym⟩
    have hyfil : y ∈ l.filter (fun x => decide (x.1 ≤ m)) := by
      rw [List.mem_filter]
      exact ⟨hy, by simpa using hym⟩
    have hfil : l.filter (fun x => decide (x.1 ≤ m)) ≠ [] := by
      intro h
      rw [h] at hyfil
      cases hyfil
    obtain ⟨x, hxlast⟩ : ∃ x,
        (l.filter (fun x => decide (x.1 ≤ m))).getLast? = some x := by
      cases h : (l.filter (fun x => decide (x.1 ≤ m))).getLast? with
      | none => exact absurd (List.getLast?_eq_none_iff.mp h) hfil
      | some x => exact ⟨x, rfl⟩
    have hxfil : x ∈ l.filter (fun x => decide (x.1 ≤ m)) :=
      List.mem_of_mem_getLast? hxlast
    have hxl : x ∈ l := List.mem_of_mem_filter hxfil
    have hxm : x.1 ≤ m := by
      have := (List.mem_filter.mp hxfil).2
      simpa using this
    refine ⟨x, hxl, hxm, ?_, ?_⟩
    · intro z hz hzm
      refine pairwise_le_getLast? _ (hs.filter _) x hxlast z ?_
      rw [List.mem_filter]
      exact ⟨hz, by simpa using hzm⟩
    · simp [get_current_rate_r, hxlast]

/-- C2 amended witness: a concrete sorted schedule with a qualifying
entry, evaluated through the amended theorem. -/
theorem current_rate_sorted_max_witness :
    get_current_rate_r 2 0 (some [(5, 6), (10, 4)]) 12 = 4 / 2 := by
  obtain ⟨x, hxl, hxm, hmax, hval⟩ :=
    (current_rate_sorted_max 2 0 12 [(5, 6), (10, 4)]
      (by norm_num)).2.2 ⟨(5, 6), by norm_num, by norm_num⟩
  have h10 : x.1 = 10 := by
    have h1 := hmax (10, 4) (by norm_num) (by norm_num)
    rcases List.mem_pair.mp hxl with h | h <;> rw [h] at h1 ⊢ <;> norm_num at h1 ⊢
  have hx : x = (10, 4) := by
    rcases List.mem_pair.mp hxl with h | h
    · rw [h] at h10; norm_num at h10
    · exact h
  rw [hval, hx]
  norm_num

/-- C4: the payment formula returns `None` (no exception) exactly when
its preconditions are violated — `p ≤ 0` or `n = 0` — and the
simulation loop treats a state whose carried payment is `None` as
normal termination: running it is a no-op that succeeds. -/
theorem payment_none_iff_loop_signal :
    (∀ (n : ℤ) (p r : ℚ),
      get_recurring_payment_c n p r = .ok none ↔ p ≤ 0 ∨ n = 0) ∧
    (∀ (L : HomeLoan) (Rs Os : Option (List (ℚ × ℚ))) (fuel : ℕ)
      (st : SimState), st.c = none →
      simRun L Rs Os fuel st = .ok st) := by
  constructor
  · intro n p r
    constructor
    · intro h
      by_contra hcon
      push_neg at hcon
      exact payment_not_none n p r hcon.2 hcon.1 h
    · intro h
      unfold get_recurring_payment_c
      rw [if_pos h]
  · intro L Rs Os fuel st hc
    refine simRun_guard_false L Rs Os fuel st ?_
    simp [simCond, hc]

/-- C4 witness: a degenerate payment call (`p = 0`) returning `None`,
and a concrete `None`-carrying state on which the loop is a no-op. -/
theorem payment_none_iff_loop_signal_witness :
    get_recurring_payment_c 5 0 (1 / 2) = .ok none ∧
      simRun ⟨1, 1, 100, 1⟩ none none 7
        { p := 50, r := 1, o := 0, e := 0, i := 3, c := none, plan := [] } =
      .ok { p := 50, r := 1, o := 0, e := 0, i := 3, c := none, plan := [] } :=
  ⟨(payment_none_iff_loop_signal.1 5 0 (1 / 2)).mpr (Or.inl le_rfl),
    payment_none_iff_loop_signal.2 ⟨1, 1, 100, 1⟩ none none 7 _ rfl⟩

/-- A successful `simulate` comes from a successful run whose final
state carries the returned plan. -/
theorem simulate_ok_elim (L : HomeLoan) (Rs Os : Option (List (ℚ × ℚ)))
    (plan : List Record) (h : L.simulate Rs Os = .ok plan) :
    ∃ st', simRun L Rs Os (L.n + 2) L.initState = .ok st' ∧
      st'.plan = plan := by
  unfold HomeLoan.simulate at h
  cases hrun : simRun L Rs Os (L.n + 2) L.initState with
  | error u => rw [hrun] at h; cases h
  | ok st' =>
    rw [hrun] at h
    exact ⟨st', rfl, by simpa [Except.map] using h⟩

/-- C10: every emitted record satisfies the payment-decomposition
identity `interest_pay + principal_pay + extra_pay = total_pay`. -/
theorem payment_decomposition (L : HomeLoan)
    (Rs Os : Option (List (ℚ × ℚ))) (plan : List Record)
    (h : L.simulate Rs Os = .ok plan) :
    ∀ rec ∈ plan,
      rec.interest_pay + rec.principal_pay + rec.extra_pay =
        rec.total_pay := by
  obtain ⟨st', hrun, hplan⟩ := simulate_ok_elim L Rs Os plan h
  rw [← hplan]
  refine simRun_inv L Rs Os
    (fun s => ∀ rec ∈ s.plan,
      rec.interest_pay + rec.principal_pay + rec.extra_pay = rec.total_pay)
    ?_ _ _ _ (by simp [HomeLoan.initState]) hrun
  intro s s' _ hb hInv
  rw [simBody_eq] at hb
  cases hcres : stepC L Rs s with
  | error u => rw [hcres] at hb; cases hb
  | ok c =>
    rw [hcres] at hb
    cases hb
    intro rec hrec
    simp only [stepNext] at hrec
    rcases List.mem_append.mp hrec with hold | hnew
    · exact hInv rec hold
    · have hrow : rec = stepRow L Rs Os s c := by simpa using hnew
      subst hrow
      simp only [stepRow]
      ring

/-- A small concrete loan used to witness the general theorems: term
two years, one payment per year, principal 100, initial annual rate 1,
with a rate change to annual rate 2 scheduled at month 24 and an
offset contribution of 10 at month 12. -/
def wLoan : HomeLoan := { N := 2, k := 1, P := 100, R0 := 1 }

/-- The rate schedule of the concrete witness run. -/
def wRs : Option (List (ℚ × ℚ)) := some [(24, 2)]

/-- The offset schedule of the concrete witness run. -/
def wOs : Option (List (ℚ × ℚ)) := some [(12, 10)]

/-- The plan emitted by the concrete witness run. -/
def wPlan : List Record :=
  [{ i := 0, month := 0, year := 0, rate := 1, offset_pay := 0,
     interest_pay := 0, principal_pay := 0, extra_pay := 0, total_pay := 0,
     principal := 100, offset := 0, extra := 0, remaining := 100 },
   { i := 1, month := 12, year := 1, rate := 1, offset_pay := 10,
     interest_pay := 100, principal_pay := 100 / 3, extra_pay := 0,
     total_pay := 400 / 3, principal := 200 / 3, offset := 10, extra := 0,
     remaining := 200 / 3 },
   { i := 2, month := 24, year := 2, rate := 2, offset_pay := 0,
     interest_pay := 340 / 3, principal_pay := 200 / 3, extra_pay := 20,
     total_pay := 200, principal := 0, offset := 10, extra := 20,
     remaining := -20 }]

/-- The concrete witness run evaluates to `wPlan`. -/
theorem wPlan_eval : wLoan.simulate wRs wOs = .ok wPlan := by
  norm_num [wLoan, wRs, wOs, wPlan, HomeLoan.simulate, simRun, simBody,
    simCond, get_current_rate_r, get_accumulated_offset_o,
    get_recurring_payment_c, HomeLoan.initState, HomeLoan.n, HomeLoan.r0,
    Except.map, List.filter]

/-- C10 witness: the decomposition identity on the third record of the
concrete witness run, via the general theorem. -/
theorem payment_decomposition_witness :
    (wPlan.getD 2 default).interest_pay +
      (wPlan.getD 2 default).principal_pay +
      (wPlan.getD 2 default).extra_pay =
    (wPlan.getD 2 default).total_pay := by
  refine payment_decomposition wLoan wRs wOs wPlan wPlan_eval _ ?_
  simp [wPlan]

/-- C9: for every run started with a positive principal, the first
emitted record is the inception record of period `0`: no payment, no
interest, no principal or extra component, and a remaining principal
equal to the initial principal `P`.  (The rate lookup and the offset
delta are still performed at period `0`, so those fields are not
constrained here.) -/
theorem inception_record_no_payment (L : HomeLoan)
    (Rs Os : Option (List (ℚ × ℚ))) (plan : List Record) (hP : 0 < L.P)
    (h : L.simulate Rs Os = .ok plan) :
    plan ≠ [] ∧ (plan.headD default).i = 0 ∧
      (plan.headD default).total_pay = 0 ∧
      (plan.headD default).interest_pay = 0 ∧
      (plan.headD default).principal_pay = 0 ∧
      (plan.headD default).extra_pay = 0 ∧
      (plan.headD default).principal = L.P := by
  obtain ⟨st', hrun, hplan⟩ := simulate_ok_elim L Rs Os plan h
  have hfuel : L.n + 2 = (L.n + 1) + 1 := rfl
  rw [hfuel] at hrun
  have hcond : simCond L.initState = true := by
    simp [simCond, HomeLoan.initState, hP]
  rw [simRun, if_pos hcond, simBody_eq] at hrun
  have hstepC : stepC L Rs L.initState = .ok (some 0) := by
    simp [stepC, HomeLoan.initState]
  rw [hstepC] at hrun
  obtain ⟨tail, htail⟩ := simRun_plan_grows L Rs Os _ _ _ hrun
  have hrow : plan = stepRow L Rs Os L.initState (some 0) :: tail := by
    rw [← hplan, htail]
    simp [stepNext, HomeLoan.initState]
  rw [hrow]
  refine ⟨by simp, ?_, ?_, ?_, ?_, ?_, ?_⟩ <;>
    simp [stepRow, stepActual, stepPlanned, HomeLoan.initState]

/-- C9 witness: the inception record of the concrete witness run, via
the general theorem. -/
theorem inception_record_no_payment_witness :
    wPlan ≠ [] ∧ (wPlan.headD default).i = 0 ∧
      (wPlan.headD default).total_pay = 0 ∧
      (wPlan.headD default).interest_pay = 0 ∧
      (wPlan.headD default).principal_pay = 0 ∧
      (wPlan.headD default).extra_pay = 0 ∧
      (wPlan.headD default).principal = wLoan.P :=
  inception_record_no_payment wLoan wRs wOs wPlan (by norm_num [wLoan])
    wPlan_eval

/-- A concrete loan whose offset schedule has a contribution landing
exactly on a (non-inception) period's current month boundary: term one
year, two payments per year, principal 1000, annual rate 1/5, with an
offset contribution of 100 at month 6 (period 1's current month). -/
def cLoan : HomeLoan := { N := 1, k := 2, P := 1000, R0 := 1 / 5 }

/-- The offset schedule of the `cLoan` run. -/
def cOs : Option (List (ℚ × ℚ)) := some [(6, 100)]

/-- The plan emitted by the `cLoan` run. -/
def cPlan : List Record :=
  [{ i := 0, month := 0, year := 0, rate := 1 / 5, offset_pay := 0,
     interest_pay := 0, principal_pay := 0, extra_pay := 0, total_pay := 0,
     principal := 1000, offset := 0, extra := 0, remaining := 1000 },
   { i := 1, month := 6, year := 1 / 2, rate := 1 / 5, offset_pay := 100,
     interest_pay := 100, principal_pay := 10000 / 21, extra_pay := 0,
     total_pay := 12100 / 21, principal := 11000 / 21, offset := 100,
     extra := 0, remaining := 11000 / 21 },
   { i := 2, month := 12, year := 1, rate := 1 / 5, offset_pay := 0,
     interest_pay := 890 / 21, principal_pay := 11000 / 21, extra_pay := 10,
     total_pay := 12100 / 21, principal := 0, offset := 100, extra := 10,
     remaining := -10 }]

/-- The `cLoan` run evaluates to `cPlan`. -/
theorem cPlan_eval : cLoan.simulate none cOs = .ok cPlan := by
  norm_num [cLoan, cOs, cPlan, HomeLoan.simulate, simRun, simBody, simCond,
    get_current_rate_r, get_accumulated_offset_o, get_recurring_payment_c,
    HomeLoan.initState, HomeLoan.n, HomeLoan.r0, Except.map, List.filter]

/-- C3 counterexample: in the `cLoan` run, period 1 (periodic rate
`1/10`, outstanding principal 1000, accumulated extra 0) records
actual interest 100 — computed from the PREVIOUS month boundary's
accumulated offset (0) — whereas the claim's formula with the CURRENT
month boundary's accumulated offset (100 at month 6) would give
`max 0 (1000 - (100 + 0)) * (1/10) = 90`. -/
theorem interest_actual_current_offset_cex :
    cLoan.simulate none cOs = .ok cPlan ∧
      (cPlan.getD 1 default).interest_pay = 100 ∧
      (cPlan.getD 0 default).principal = 1000 ∧
      (cPlan.getD 0 default).extra = 0 ∧
      (cPlan.getD 1 default).rate / (cLoan.k : ℚ) = 1 / 10 ∧
      get_accumulated_offset_o cOs ((1 : ℚ) * 12 / (cLoan.k : ℚ)) = 100 ∧
      max 0 (1000 - (100 + 0)) * (1 / 10 : ℚ) = 90 ∧ (100 : ℚ) ≠ 90 := by
  refine ⟨cPlan_eval, by norm_num [cPlan], by norm_num [cPlan],
    by norm_num [cPlan], by norm_num [cPlan, cLoan], ?_, by norm_num,
    by norm_num⟩
  norm_num [get_accumulated_offset_o, cOs, cLoan, List.filter]

/-- C3 amended: in every simulated period after inception, the
recorded actual interest equals
`max 0 (p - (prevAccumulatedOffset + accumulatedExtra)) * r`, where
`prevAccumulatedOffset` is the offset accumulated up to the PREVIOUS
month boundary of the period (not the current one), `p` and the
accumulated extra are those of the preceding record, and `r` is the
period's resolved periodic rate. -/
theorem interest_actual_previous_offset (L : HomeLoan)
    (Rs Os : Option (List (ℚ × ℚ))) (plan : List Record) (hk : 0 < L.k)
    (h : L.simulate Rs Os = .ok plan) :
    ∀ j : ℕ, 1 ≤ j → j < plan.length →
      (plan.getD j default).interest_pay =
        max 0 ((plan.getD (j - 1) default).principal -
          (get_accumulated_offset_o Os (((j : ℚ) - 1) * 12 / (L.k : ℚ)) +
            (plan.getD (j - 1) default).extra)) *
          ((plan.getD j default).rate / (L.k : ℚ)) := by
  obtain ⟨st', hrun, hplan⟩ := simulate_ok_elim L Rs Os plan h
  rw [← hplan]
  have hkQ : (L.k : ℚ) ≠ 0 := Nat.cast_ne_zero.mpr (by omega)
  refine (simRun_inv L Rs Os
    (fun s => s.plan.length = s.i ∧
      (∀ rec, s.plan.getLast? = some rec →
        rec.principal = s.p ∧ rec.extra = s.e) ∧
      (∀ j : ℕ, 1 ≤ j → j < s.plan.length →
        (s.plan.getD j default).interest_pay =
          max 0 ((s.plan.getD (j - 1) default).principal -
            (get_accumulated_offset_o Os
              (((j : ℚ) - 1) * 12 / (L.k : ℚ)) +
              (s.plan.getD (j - 1) default).extra)) *
            ((s.plan.getD j default).rate / (L.k : ℚ))))
    ?_ _ _ _ ?_ hrun).2.2
  · intro s s' _ hb hInv
    rw [simBody_eq] at hb
    cases hcres : stepC L Rs s with
    | error u => rw [hcres] at hb; cases hb
    | ok c =>
      rw [hcres] at hb
      cases hb
      obtain ⟨hlen, hlast, hform⟩ := hInv
      refine ⟨?_, ?_, ?_⟩
      · simp [stepNext, hlen]
      · intro rec hrec
        rw [stepNext] at hrec
        simp only [List.getLast?_concat] at hrec
        cases hrec
        simp [stepRow, stepNext]
      · intro j hj1 hjlt
        rw [stepNext] at hjlt ⊢
        simp only [List.length_append, List.length_cons,
          List.length_nil] at hjlt
        rcases Nat.lt_or_ge j s.plan.length with hlt | hge
        · rw [List.getD_append _ _ _ _ hlt,
            List.getD_append _ _ _ _ (by omega : j - 1 < s.plan.length)]
          exact hform j hj1 hlt
        · have hjeq : j = s.plan.length := by omega
          have hipos : 0 < s.i := by omega
          rw [List.getD_append_right _ _ _ _ (by omega : s.plan.length ≤ j),
            List.getD_append _ _ _ _ (by omega : j - 1 < s.plan.length)]
          have hj0 : j - s.plan.length = 0 := by omega
          rw [hj0]
          have hne : s.plan ≠ [] := by
            intro h0
            rw [h0] at hjeq
            simp at hjeq
            omega
          obtain ⟨rec, hreclast⟩ : ∃ rec, s.plan.getLast? = some rec := by
            cases h0 : s.plan.getLast? with
            | none => exact absurd (List.getLast?_eq_none_iff.mp h0) hne
            | some rec => exact ⟨rec, rfl⟩
          have hrecD : s.plan.getD (j - 1) default = rec := by
            have hg := List.getLast?_eq_get? s.plan
            rw [hreclast] at hg
            rw [List.getD_eq_get?]
            have harg : s.plan.length - 1 = j - 1 := by omega
            rw [harg] at hg
            rw [← hg]
            rfl
          obtain ⟨hrp, hre⟩ := hlast rec hreclast
          have hcast : ((j : ℚ)) = ((s.i : ℚ)) := by
            rw [hjeq, hlen]
          rw [hrecD, hrp, hre]
          simp only [List.getD_cons_zero, stepRow, stepActual, stepPrevO,
            stepR, if_pos hipos]
          rw [mul_div_cancel_right₀ _ hkQ, hcast]
  · refine ⟨by simp [HomeLoan.initState], ?_, ?_⟩
    · intro rec hrec
      simp [HomeLoan.initState] at hrec
    · intro j hj1 hjlt
      simp [HomeLoan.initState] at hjlt

/-- C3 amended witness: the previous-month-offset formula checked on
period 1 of the `cLoan` run, via the amended theorem. -/
theorem interest_actual_previous_offset_witness :
    (cPlan.getD 1 default).interest_pay =
      max 0 ((cPlan.getD 0 default).principal -
        (get_accumulated_offset_o cOs 0 + (cPlan.getD 0 default).extra)) *
        ((cPlan.getD 1 default).rate / 2) := by
  have h := interest_actual_previous_offset cLoan none cOs cPlan
    (by norm_num [cLoan]) cPlan_eval 1 le_rfl (by norm_num [cPlan])
  simpa [cLoan] using h

/-- Rate lookup against a single-entry schedule is a threshold test. -/
theorem rate_lookup_single (k : ℕ) (r m M R : ℚ) :
    get_current_rate_r k r (some [(M, R)]) m =
      if M ≤ m then R / (k : ℚ) else r := by
  by_cases h : M ≤ m <;> simp [get_current_rate_r, List.filter_cons, h]

/-- C7: with a rate schedule holding a single entry effective at month
24, every emitted record whose month offset is at least 24 carries the
new annual rate, and every earlier record carries the original rate
`R0`. -/
theorem rate_change_propagation (L : HomeLoan) (Rnew : ℚ)
    (Os : Option (List (ℚ × ℚ))) (plan : List Record) (hk : 0 < L.k)
    (h : L.simulate (some [(24, Rnew)]) Os = .ok plan) :
    ∀ rec ∈ plan, (24 ≤ rec.month → rec.rate = Rnew) ∧
      (rec.month < 24 → rec.rate = L.R0) := by
  obtain ⟨st', hrun, hplan⟩ :=
    simulate_ok_elim L (some [(24, Rnew)]) Os plan h
  rw [← hplan]
  have hkQ : (L.k : ℚ) ≠ 0 := Nat.cast_ne_zero.mpr (by omega)
  have hkQ0 : (0 : ℚ) < (L.k : ℚ) := by
    exact_mod_cast hk
  refine (simRun_inv L (some [(24, Rnew)]) Os
    (fun s => (∀ rec ∈ s.plan, (24 ≤ rec.month → rec.rate = Rnew) ∧
        (rec.month < 24 → rec.rate = L.R0)) ∧
      (s.r = L.r0 ∨ (1 ≤ s.i ∧ 24 ≤ ((s.i : ℚ) - 1) * 12 / (L.k : ℚ))))
    ?_ _ _ _ ⟨by simp [HomeLoan.initState], Or.inl rfl⟩ hrun).1
  intro s s' _ hb hInv
  rw [simBody_eq] at hb
  cases hcres : stepC L (some [(24, Rnew)]) s with
  | error u => rw [hcres] at hb; cases hb
  | ok c =>
    rw [hcres] at hb
    cases hb
    obtain ⟨hrecs, hr⟩ := hInv
    have hstepR : stepR L (some [(24, Rnew)]) s =
        if 24 ≤ (s.i : ℚ) * 12 / (L.k : ℚ) then Rnew / (L.k : ℚ) else s.r :=
      rate_lookup_single L.k s.r ((s.i : ℚ) * 12 / (L.k : ℚ)) 24 Rnew
    by_cases h24 : (24 : ℚ) ≤ (s.i : ℚ) * 12 / (L.k : ℚ)
    · rw [if_pos h24] at hstepR
      constructor
      · intro rec hrec
        rw [stepNext] at hrec
        rcases List.mem_append.mp hrec with hold | hnew
        · exact hrecs rec hold
        · have hrow : rec = stepRow L (some [(24, Rnew)]) Os s c := by
            simpa using hnew
          subst hrow
          constructor
          · intro _
            simp only [stepRow, hstepR]
            rw [div_mul_cancel₀ _ hkQ]
          · intro hlt
            exfalso
            simp only [stepRow] at hlt
            linarith
      · right
        refine ⟨by simp [stepNext], ?_⟩
        rw [stepNext]
        simp only
        push_cast
        have harith : ((s.i : ℚ) + 1 - 1) = (s.i : ℚ) := by ring
        rw [harith]
        exact h24
    · rw [if_neg h24] at hstepR
      have hrold : s.r = L.r0 := by
        rcases hr with h0 | ⟨hi1, hge⟩
        · exact h0
        · exfalso
          have hmono : ((s.i : ℚ) - 1) * 12 / (L.k : ℚ) ≤
              (s.i : ℚ) * 12 / (L.k : ℚ) :=
            (div_le_div_right hkQ0).mpr (by linarith)
          push_neg at h24
          linarith
      constructor
      · intro rec hrec
        rw [stepNext] at hrec
        rcases List.mem_append.mp hrec with hold | hnew
        · exact hrecs rec hold
        · have hrow : rec = stepRow L (some [(24, Rnew)]) Os s c := by
            simpa using hnew
          subst hrow
          constructor
          · intro hge
            exfalso
            simp only [stepRow] at hge
            push_neg at h24
            linarith
          · intro _
            simp only [stepRow, hstepR, hrold, HomeLoan.r0]
            rw [div_mul_cancel₀ _ hkQ]
      · left
        rw [stepNext]
        simp only
        rw [hstepR, hrold]

/-- C7 witness: the record at month 24 of the concrete witness run
carries the new annual rate 2, via the general theorem. -/
theorem rate_change_propagation_witness : (wPlan.getD 2 default).rate = 2 := by
  refine (rate_change_propagation wLoan 2 wOs wPlan (by norm_num [wLoan])
    wPlan_eval (wPlan.getD 2 default) ?_).1 ?_
  · simp [wPlan]
  · norm_num [wPlan]

/-- A zero-period payment request always yields `None`. -/
theorem payment_zero_periods (p r : ℚ) :
    get_recurring_payment_c 0 p r = .ok none := by
  unfold get_recurring_payment_c
  rw [if_pos (Or.inr rfl)]

/-- Auxiliary termination bound: from any state whose period index is
within the structural bound (with the boundary forcing a `None`
payment), `n + 2 - i` iterations of fuel suffice to reach a state the
loop can no longer leave. -/
theorem simRun_terminal_aux (L : HomeLoan)
    (Rs Os : Option (List (ℚ × ℚ))) :
    ∀ (fuel : ℕ) (st : SimState), st.i ≤ L.n + 2 →
      (st.i = L.n + 2 → st.c = none) → L.n + 2 ≤ st.i + fuel →
      terminalized (simRun L Rs Os fuel st) := by
  intro fuel
  induction fuel with
  | zero =>
    intro st hle hforce hbound
    have hi : st.i = L.n + 2 := by omega
    have hc : st.c = none := hforce hi
    show simCond st = false
    simp [simCond, hc]
  | succ f ih =>
    intro st hle hforce hbound
    by_cases hc : simCond st = true
    · rw [simRun, if_pos hc]
      have hcne : st.c ≠ none := by
        intro h0
        rw [simCond, h0] at hc
        simp at hc
      have hi : st.i ≤ L.n + 1 := by
        rcases Nat.lt_or_ge st.i (L.n + 2) with h | h
        · omega
        · exact absurd (hforce (by omega)) hcne
      rw [simBody_eq]
      cases hcres : stepC L Rs st with
      | error u => trivial
      | ok c =>
        refine ih (stepNext L Rs Os st c) ?_ ?_ ?_
        · simp [stepNext]
          omega
        · intro hi'
          simp only [stepNext] at hi' ⊢
          have hieq : st.i = L.n + 1 := by omega
          rw [stepC, if_pos (by omega), hieq] at hcres
          have hz : ((L.n : ℤ) + 1 - ((L.n + 1 : ℕ) : ℤ)) = 0 := by
            push_cast
            ring
          rw [hz, payment_zero_periods] at hcres
          exact (Except.ok.inj hcres).symm
        · simp [stepNext]
          omega
    · rw [simRun_guard_false L Rs Os (f + 1) st (by simpa using hc)]
      show simCond st = false
      simpa using hc

/-- C6: for valid loan parameters the simulation loop always reaches a
state it cannot leave within `totalPeriods + 2` iterations — the
structural bound `n = N * k` plus the inception period and the final
`None`-payment period — and granting any extra fuel beyond that bound
does not change the result of the run. -/
theorem simulate_loop_terminates (L : HomeLoan)
    (Rs Os : Option (List (ℚ × ℚ))) (hN : 0 < L.N) (hk : 0 < L.k)
    (hP : 0 < L.P) (hR0 : 0 ≤ L.R0) :
    terminalized (simRun L Rs Os (L.n + 2) L.initState) ∧
      ∀ extra : ℕ, simRun L Rs Os (L.n + 2 + extra) L.initState =
        simRun L Rs Os (L.n + 2) L.initState := by
  have hterm := simRun_terminal_aux L Rs Os (L.n + 2) L.initState
    (by simp [HomeLoan.initState]) ?_ (by simp [HomeLoan.initState])
  · exact ⟨hterm, fun extra => simRun_stable L Rs Os (L.n + 2) extra _ hterm⟩
  · intro h0
    rw [HomeLoan.initState] at h0
    simp at h0

/-- C6 witness: the termination bound and fuel stability on the
concrete witness run. -/
theorem simulate_loop_terminates_witness :
    terminalized (simRun wLoan wRs wOs (wLoan.n + 2) wLoan.initState) ∧
      simRun wLoan wRs wOs (wLoan.n + 2 + 0) wLoan.initState =
        simRun wLoan wRs wOs (wLoan.n + 2) wLoan.initState := by
  have h := simulate_loop_terminates wLoan wRs wOs (by norm_num [wLoan])
    (by norm_num [wLoan]) (by norm_num [wLoan]) (by norm_num [wLoan])
  exact ⟨h.1, h.2 0⟩

/-- C5: with valid parameters, non-negative scheduled rates and
non-negative offset contributions, the remaining principal recorded in
the emitted plan is monotonically non-increasing across adjacent
periods. -/
theorem remaining_principal_monotone (L : HomeLoan)
    (Rs Os : Option (List (ℚ × ℚ))) (plan : List Record) (hN : 0 < L.N)
    (hk : 0 < L.k) (hR0 : 0 ≤ L.R0) (hRs : schedNonneg Rs)
    (hOs : schedNonneg Os) (h : L.simulate Rs Os = .ok plan) :
    ∀ j : ℕ, j + 1 < plan.length →
      (plan.getD (j + 1) default).principal ≤
        (plan.getD j default).principal := by
  obtain ⟨st', hrun, hplan⟩ := simulate_ok_elim L Rs Os plan h
  rw [← hplan]
  have hnpos : 0 < L.n := Nat.mul_pos hN hk
  have hchain : List.Chain' (fun a b => b.principal ≤ a.principal)
      st'.plan := by
    refine (simRun_inv L Rs Os
      (fun s => 0 ≤ s.r ∧ 0 ≤ s.e ∧ (simCond s = true → s.i ≤ L.n) ∧
        (∀ rec, s.plan.getLast? = some rec → rec.principal = s.p) ∧
        List.Chain' (fun a b => b.principal ≤ a.principal) s.plan)
      ?_ _ _ _ ?_ hrun).2.2.2.2
    · intro s s' hc hb hInv
      obtain ⟨hr, he, hiN, hlast, hchain⟩ := hInv
      have hep : s.e < s.p := by
        rw [simCond, Bool.and_eq_true, decide_eq_true_eq] at hc
        exact hc.1
      have hppos : 0 < s.p := lt_of_le_of_lt he hep
      have hr' : 0 ≤ stepR L Rs s :=
        get_current_rate_r_nonneg L.k s.r Rs _ hr hRs
      have hprevO : 0 ≤ stepPrevO L Os s :=
        get_accumulated_offset_o_nonneg Os _ hOs
      rw [simBody_eq] at hb
      cases hcres : stepC L Rs s with
      | error u => rw [hcres] at hb; cases hb
      | ok c =>
        rw [hcres] at hb
        cases hb
        have hpay_le : c.getD 0 - stepPlanned L Rs s ≤ c.getD 0 -
            stepPlanned L Rs s := le_refl _
        by_cases hi0 : 0 < s.i
        · have hiLn : s.i ≤ L.n := hiN hc
          rw [stepC, if_pos hi0] at hcres
          have hm1 : (1 : ℤ) ≤ (L.n : ℤ) + 1 - (s.i : ℤ) := by
            omega
          obtain ⟨v, hv⟩ : ∃ v, c = some v := by
            cases c with
            | none =>
              exact absurd hcres (payment_not_none _ _ _ (by omega) hppos)
            | some v => exact ⟨v, rfl⟩
          subst hv
          have hvge : s.p * stepR L Rs s ≤ v :=
            payment_ge_interest _ _ _ _ hm1 hppos hr' hcres
          have hplanned : stepPlanned L Rs s = s.p * stepR L Rs s := by
            rw [stepPlanned, if_pos hi0]
          have hprincipal_le : (stepNext L Rs Os s (some v)).p ≤ s.p := by
            rw [stepNext]
            simp only [Option.getD_some, hplanned]
            linarith
          have hextra : 0 ≤ stepPlanned L Rs s - stepActual L Rs Os s := by
            rw [hplanned, stepActual, if_pos hi0]
            have hmax_le : max 0 (s.p - (stepPrevO L Os s + s.e)) ≤ s.p := by
              rw [max_le_iff]
              constructor
              · linarith
              · linarith
            have := mul_le_mul_of_nonneg_right hmax_le hr'
            linarith
          refine ⟨hr', ?_, ?_, ?_, ?_⟩
          · rw [stepNext]
            simp only
            linarith
          · intro hc'
            rw [stepNext]
            simp only
            by_cases hieq : s.i = L.n
            · exfalso
              have hmone : (L.n : ℤ) + 1 - (s.i : ℤ) = 1 := by omega
              rw [hmone] at hcres
              have hvval : v = s.p * (1 + stepR L Rs s) :=
                payment_one_period _ _ _ hcres
              have hp0 : (stepNext L Rs Os s (some v)).p = 0 := by
                rw [stepNext]
                simp only [Option.getD_some, hplanned, hvval]
                ring
              have he0 : 0 ≤ (stepNext L Rs Os s (some v)).e := by
                rw [stepNext]
                simp only
                linarith
              rw [simCond, Bool.and_eq_true, decide_eq_true_eq] at hc'
              rw [hp0] at hc'
              linarith [hc'.1]
            · omega
          · intro rec hrec
            rw [stepNext] at hrec ⊢
            simp only [List.getLast?_concat] at hrec
            cases hrec
            simp [stepRow]
          · rw [stepNext]
            simp only
            rw [List.chain'_append]
            refine ⟨hchain, List.chain'_singleton _, ?_⟩
            intro x hx y hy
            simp only [List.head?_cons, Option.mem_def,
              Option.some.injEq] at hy
            subst hy
            have hx' : s.plan.getLast? = some x := hx
            rw [stepRow]
            simp only
            rw [hlast x hx']
            simp only [Option.getD_some, hplanned] at hprincipal_le ⊢
            rw [stepNext] at hprincipal_le
            simp only [Option.getD_some, hplanned] at hprincipal_le
            exact hprincipal_le
        · have hi0' : s.i = 0 := by omega
          rw [stepC, if_neg hi0] at hcres
          have hcv : c = some 0 := (Except.ok.inj hcres).symm
          subst hcv
          have hplanned0 : stepPlanned L Rs s = 0 := by
            rw [stepPlanned, if_neg hi0]
          have hactual0 : stepActual L Rs Os s = 0 := by
            rw [stepActual, if_neg hi0]
          refine ⟨hr', ?_, ?_, ?_, ?_⟩
          · rw [stepNext]
            simp only [hplanned0, hactual0]
            simpa using he
          · intro _
            rw [stepNext]
            simp only
            omega
          · intro rec hrec
            rw [stepNext] at hrec ⊢
            simp only [List.getLast?_concat] at hrec
            cases hrec
            simp [stepRow]
          · rw [stepNext]
            simp only
            rw [List.chain'_append]
            refine ⟨hchain, List.chain'_singleton _, ?_⟩
            intro x hx y hy
            simp only [List.head?_cons, Option.mem_def,
              Option.some.injEq] at hy
            subst hy
            have hx' : s.plan.getLast? = some x := hx
            rw [stepRow]
            simp only
            rw [hlast x hx']
            simp [hplanned0]
    · refine ⟨?_, le_refl 0, ?_, ?_, ?_⟩
      · exact div_nonneg hR0 (Nat.cast_nonneg L.k)
      · intro _
        simp [HomeLoan.initState]
      · intro rec hrec
        simp [HomeLoan.initState] at hrec
      · simp [HomeLoan.initState]
  intro j hj
  have hget := List.chain'_iff_get.mp hchain j (by omega)
  rw [List.getD_eq_get _ _ (by omega : j + 1 < st'.plan.length),
    List.getD_eq_get _ _ (by omega : j < st'.plan.length)]
  exact hget

/-- C5 witness: adjacent records of the concrete witness run, via the
general theorem. -/
theorem remaining_principal_monotone_witness :
    (wPlan.getD 2 default).principal ≤ (wPlan.getD 1 default).principal := by
  have h := remaining_principal_monotone wLoan wRs wOs wPlan
    (by norm_num [wLoan]) (by norm_num [wLoan]) (by norm_num [wLoan])
    (by intro x hx; simp [wRs] at hx; rw [hx]; norm_num)
    (by intro x hx; simp [wOs] at hx; rw [hx]; norm_num)
    wPlan_eval 1 (by norm_num [wPlan])
  exact h

/-- C8 counterexample: the strict inequality does not hold for every
parameter set.  For the one-period loan `N = 1, k = 1, P = 300000,
R0 = 1/10`, the run with a 200000 offset contribution at month 0 and
the run without any offset both emit exactly 2 period records, so the
offset run's payoff period count is not strictly smaller. -/
theorem offset_acceleration_equal_cex :
    (HomeLoan.simulate ⟨1, 1, 300000, 1 / 10⟩ none none).map
        List.length = .ok 2 ∧
      (HomeLoan.simulate ⟨1, 1, 300000, 1 / 10⟩ none
        (some [(0, 200000)])).map List.length = .ok 2 := by
  constructor <;>
    norm_num [HomeLoan.simulate, simRun, simBody, simCond,
      get_current_rate_r, get_accumulated_offset_o,
      get_recurring_payment_c, HomeLoan.initState, HomeLoan.n,
      HomeLoan.r0, Except.map, List.filter]

/-- C8 amended: the offset run can terminate strictly earlier when the
offset's interest savings extinguish the principal before the
contractual end of term: for `N = 3, k = 1, P = 210000, R0 = 1`, the
200000-at-month-0 offset run emits 2 period records against 4 for the
otherwise identical no-offset run. -/
theorem offset_acceleration_strict :
    (HomeLoan.simulate ⟨3, 1, 210000, 1⟩ none none).map
        List.length = .ok 4 ∧
      (HomeLoan.simulate ⟨3, 1, 210000, 1⟩ none
        (some [(0, 200000)])).map List.length = .ok 2 ∧
      (2 : ℕ) < 4 := by
  refine ⟨?_, ?_, by norm_num⟩ <;>
    norm_num [HomeLoan.simulate, simRun, simBody, simCond,
      get_current_rate_r, get_accumulated_offset_o,
      get_recurring_payment_c, HomeLoan.initState, HomeLoan.n,
      HomeLoan.r0, Except.map, List.filter]

end HomeLoanModel
